import Mathlib

/-!
Verification of the Dolphin DiscIO blob-reader core.

The development embeds, in Lean, the reader interface of
`Source/Core/DiscIO/Blob.h` (the `SectorReader` caching layer, the
big-endian convenience wrapper `CBlobBigEndianReader::ReadSwapped`, and the
compression driver entry points) together with the small address-range
overlap helper of `Source/Plugins/Plugin_VideoOGL/Src/main.cpp`.

Only the header of the DiscIO core is part of the excerpt; the member
function bodies live in a translation unit that is not included.  Where a
body is missing, the corresponding Lean definition is modelled from the
specification's algorithm (each such definition says so in its doc
comment).  Bytes are modelled as natural numbers, buffers as lists of
bytes, and fallible operations return `Option`.
-/

/-! ## Address-range overlap (Plugin_VideoOGL/Src/main.cpp) -/

/-- Overlap test from `main.cpp`:
`return !((aLower >= bUpper) || (bLower >= aUpper));`.
The arguments are `u32` addresses; the function only compares them, so they
are modelled as naturals. -/
def addrRangesOverlap (aLower aUpper bLower bUpper : Nat) : Bool :=
  !(decide (aLower ≥ bUpper) || decide (bLower ≥ aUpper))

/-- C10: for nonempty half-open ranges `[aLower, aUpper)` and
`[bLower, bUpper)`, `addrRangesOverlap` returns true exactly when the two
ranges share an element, and it is symmetric in the two ranges. -/
theorem addrRangesOverlap_correct (aL aU bL bU : Nat) (ha : aL < aU) (hb : bL < bU) :
    (addrRangesOverlap aL aU bL bU = true ↔
      ∃ x, (aL ≤ x ∧ x < aU) ∧ (bL ≤ x ∧ x < bU)) ∧
    addrRangesOverlap aL aU bL bU = addrRangesOverlap bL bU aL aU := by
  constructor
  · simp only [addrRangesOverlap, Bool.not_eq_true', Bool.or_eq_false_iff,
      decide_eq_false_iff_not, not_le]
    constructor
    · rintro ⟨h1, h2⟩
      exact ⟨max aL bL, ⟨by omega, by omega⟩, ⟨by omega, by omega⟩⟩
    · rintro ⟨x, ⟨hx1, hx2⟩, ⟨hx3, hx4⟩⟩
      omega
  · simp only [addrRangesOverlap]
    rw [Bool.or_comm]

/-- Concrete instance of `addrRangesOverlap_correct` at ranges `[0,2)` and
`[1,3)`. -/
theorem addrRangesOverlap_correct_witness :
    (addrRangesOverlap 0 2 1 3 = true ↔
      ∃ x, (0 ≤ x ∧ x < 2) ∧ (1 ≤ x ∧ x < 3)) ∧
    addrRangesOverlap 0 2 1 3 = addrRangesOverlap 1 3 0 2 :=
  addrRangesOverlap_correct 0 2 1 3 (by decide) (by decide)

/-! ## Big-endian reader wrapper (Blob.h, CBlobBigEndianReader) -/

/-- Value of a byte sequence interpreted big-endian: what
`Common::FromBigEndian` yields on the host after the raw bytes were read
into a scalar. -/
def FromBigEndian (bytes : List Nat) : Nat :=
  bytes.foldl (fun acc b => acc * 256 + b) 0

/-- Embedding of `CBlobBigEndianReader::ReadSwapped` (Blob.h lines 86-94).
The underlying reader is a function from offset and size to an optional
byte list (`none` models `Read` returning false).  The C++ reads
`sizeof(T)` bytes into a temporary, returns false on failure without
touching `*buffer`, and otherwise stores the byte-swapped value.  The
result pairs the returned bool with the final buffer contents. -/
def ReadSwapped (read : Nat → Nat → Option (List Nat)) (sizeT offset buffer : Nat) :
    Bool × Nat :=
  match read offset sizeT with
  | none => (false, buffer)
  | some bytes => (true, FromBigEndian bytes)

/-- C9: `ReadSwapped` succeeds exactly when the underlying `Read` succeeds;
on success the buffer holds the big-endian-decoded value of the bytes read,
and on failure the buffer is unchanged. -/
theorem ReadSwapped_correct (read : Nat → Nat → Option (List Nat))
    (sizeT offset buffer : Nat) :
    ((ReadSwapped read sizeT offset buffer).1 = true ↔ (read offset sizeT).isSome) ∧
    (∀ bytes, read offset sizeT = some bytes →
      (ReadSwapped read sizeT offset buffer).2 = FromBigEndian bytes) ∧
    (read offset sizeT = none → (ReadSwapped read sizeT offset buffer).2 = buffer) := by
  unfold ReadSwapped
  cases h : read offset sizeT with
  | none => simp
  | some bytes => simp

/-- Concrete instance of `ReadSwapped_correct`: reading two bytes `[1, 2]`
decodes to `258`, and a failing read leaves the buffer at `7`. -/
theorem ReadSwapped_correct_witness :
    ((ReadSwapped (fun _ _ => some [1, 2]) 2 0 7).1 = true ↔
      ((fun (_ _ : Nat) => some [1, 2]) 0 2).isSome) ∧
    (ReadSwapped (fun _ _ => some [1, 2]) 2 0 7).2 = FromBigEndian [1, 2] ∧
    (ReadSwapped (fun _ _ => (none : Option (List Nat))) 2 0 7).2 = 7 :=
  ⟨(ReadSwapped_correct (fun _ _ => some [1, 2]) 2 0 7).1,
   (ReadSwapped_correct (fun _ _ => some [1, 2]) 2 0 7).2.1 [1, 2] rfl,
   (ReadSwapped_correct (fun _ _ => none) 2 0 7).2.2 rfl⟩

/-! ## The sector-reader caching layer (Blob.h, SectorReader)

`SectorReader::Read`, `SectorReader::GetBlockData` and the default
`SectorReader::ReadMultipleAlignedBlocks` are declared in Blob.h but their
bodies are in a translation unit outside the excerpt, so they are modelled
from the specification (§4.2 of the spec).  The abstract backing-store
primitive `GetBlock` is modelled as a function
`f : Nat → Option (List Nat)` from block number to the block's bytes,
`none` meaning an out-of-range or unreadable block. -/

/-- Cache capacity from Blob.h: `enum { CACHE_SIZE = 32 }`. -/
def CACHE_SIZE : Nat := 32

/-- The sector cache (`m_cache` and `m_cache_tags` in Blob.h): each of the
`CACHE_SIZE` direct-mapped slots is empty or holds a tag (block number)
together with that block's bytes. -/
abbrev Cache : Type := Fin CACHE_SIZE → Option (Nat × List Nat)

/-- A cache with every slot empty (the state before any read). -/
def emptyCache : Cache := fun _ => none

/-- Direct-mapped slot for a block number: `block_number mod CACHE_SIZE`. -/
def cacheSlot (b : Nat) : Fin CACHE_SIZE :=
  ⟨b % CACHE_SIZE, Nat.mod_lt b (by decide)⟩

/-- Modelled from the spec: `SectorReader::GetBlockData` (declared in
Blob.h line 73, body not in the excerpt).  Serve block `b` from slot
`b mod CACHE_SIZE`; on an empty slot or a tag mismatch, fetch the block
through `f` (`GetBlock`) and overwrite the slot with the new tag and
data. -/
def GetBlockData (f : Nat → Option (List Nat)) (c : Cache) (b : Nat) :
    Option (List Nat × Cache) :=
  match c (cacheSlot b) with
  | some (tag, data) =>
      if tag = b then some (data, c)
      else (f b).map fun d => (d, Function.update c (cacheSlot b) (some (b, d)))
  | none => (f b).map fun d => (d, Function.update c (cacheSlot b) (some (b, d)))

/-- Modelled from the spec: the default implementation of
`SectorReader::ReadMultipleAlignedBlocks` (declared in Blob.h line 69, body
not in the excerpt): fetch each of the `n` blocks starting at `b` in turn
and concatenate, without touching the cache. -/
def ReadMultipleAlignedBlocks (f : Nat → Option (List Nat)) :
    Nat → Nat → Option (List Nat)
  | _, 0 => some []
  | b, n + 1 => do
      let d ← f b
      let rest ← ReadMultipleAlignedBlocks f (b + 1) n
      pure (d ++ rest)

/-- First block of the fully aligned middle run of a read that spans
several blocks: the first block itself when the offset is block-aligned,
the following block otherwise. -/
def midFirst (bs offset : Nat) : Nat :=
  if offset % bs = 0 then offset / bs else offset / bs + 1

/-- Number of whole blocks in the fully aligned middle run of a spanning
read. -/
def numMid (bs offset size : Nat) : Nat :=
  (offset + size) / bs - midFirst bs offset

/-- Modelled from the spec: `SectorReader::Read` (declared in Blob.h line 62,
body not in the excerpt), following the algorithm of §4.2 of the spec.
`bs` is the block size (`m_blocksize`), `ds` the logical data size
(`GetDataSize()`), `c` the incoming cache state.  An out-of-range request
is rejected before any I/O.  A request inside one block is served through
the cache.  A spanning request is split into an unaligned prefix (via the
cache), a fully aligned middle run (via the uncached
`ReadMultipleAlignedBlocks` when it is more than one block, via the cache
when it is exactly one), and an unaligned suffix (via the cache).  The
result is the bytes read and the new cache state; `none` models `Read`
returning false. -/
def SectorReader.Read (f : Nat → Option (List Nat)) (bs ds : Nat) (c : Cache)
    (offset size : Nat) : Option (List Nat × Cache) :=
  if ds < offset + size then none
  else if size = 0 then some ([], c)
  else if offset % bs + size ≤ bs then
    (GetBlockData f c (offset / bs)).map fun p =>
      ((p.1.drop (offset % bs)).take size, p.2)
  else
    (if offset % bs = 0 then some (([] : List Nat), c)
     else (GetBlockData f c (offset / bs)).map fun p =>
       ((p.1.drop (offset % bs)).take (bs - offset % bs), p.2)).bind fun p1 =>
    (if 1 < numMid bs offset size then
        (ReadMultipleAlignedBlocks f (midFirst bs offset) (numMid bs offset size)).map
          fun d => (d, p1.2)
      else if numMid bs offset size = 1 then
        GetBlockData f p1.2 (midFirst bs offset)
      else some (([] : List Nat), p1.2)).bind fun p2 =>
    (if (offset + size) % bs = 0 then some (([] : List Nat), p2.2)
     else (GetBlockData f p2.2 ((offset + size) / bs)).map fun p =>
       (p.1.take ((offset + size) % bs), p.2)).bind fun p3 =>
    some (p1.1 ++ p2.1 ++ p3.1, p3.2)

/-- Bytes of block `b` of a blob `D` with block size `bs`: `bs` bytes
starting at `b * bs` (shorter for the final block). -/
def blockBytes (D : List Nat) (bs b : Nat) : List Nat :=
  (D.drop (b * bs)).take bs

/-- The backing store `f` faithfully fetches the blocks of blob `D`:
`GetBlock` succeeds with the exact block contents for every block that
starts inside the blob. -/
def GoodFetch (f : Nat → Option (List Nat)) (D : List Nat) (bs : Nat) : Prop :=
  ∀ b, b * bs < D.length → f b = some (blockBytes D bs b)

/-- Cache invariant: every occupied slot holds a tag that direct-maps to
that slot, and exactly the bytes `GetBlock` returns for that tag. -/
def ValidCache (f : Nat → Option (List Nat)) (c : Cache) : Prop :=
  ∀ slot tag data, c slot = some (tag, data) →
    tag % CACHE_SIZE = slot.val ∧ f tag = some data

theorem validCache_empty (f : Nat → Option (List Nat)) : ValidCache f emptyCache := by
  intro slot tag data h
  simp [emptyCache] at h

theorem GetBlockData_of_some (f : Nat → Option (List Nat)) (c : Cache) (b : Nat)
    (d : List Nat) (hv : ValidCache f c) (hf : f b = some d) :
    ∃ c', GetBlockData f c b = some (d, c') ∧ ValidCache f c' := by
  unfold GetBlockData
  cases hslot : c (cacheSlot b) with
  | none =>
      refine ⟨Function.update c (cacheSlot b) (some (b, d)), by rw [hf]; rfl, ?_⟩
      intro slot tag data h
      by_cases hs : slot = cacheSlot b
      · subst hs
        rw [Function.update_same] at h
        cases h
        exact ⟨rfl, hf⟩
      · rw [Function.update_noteq hs] at h
        exact hv slot tag data h
  | some td =>
      obtain ⟨tag, data⟩ := td
      dsimp only
      by_cases htag : tag = b
      · subst htag
        have := (hv _ _ _ hslot).2
        rw [hf] at this
        cases this
        simp only [if_pos rfl]
        exact ⟨c, rfl, hv⟩
      · rw [if_neg htag, hf]
        refine ⟨Function.update c (cacheSlot b) (some (b, d)), rfl, ?_⟩
        intro slot tag' data' h
        by_cases hs : slot = cacheSlot b
        · subst hs
          rw [Function.update_same] at h
          cases h
          exact ⟨rfl, hf⟩
        · rw [Function.update_noteq hs] at h
          exact hv slot tag' data' h

theorem GetBlockData_of_none (f : Nat → Option (List Nat)) (c : Cache) (b : Nat)
    (hv : ValidCache f c) (hf : f b = none) :
    GetBlockData f c b = none := by
  unfold GetBlockData
  cases hslot : c (cacheSlot b) with
  | none => rw [hf]; rfl
  | some td =>
      obtain ⟨tag, data⟩ := td
      dsimp only
      have htag : tag ≠ b := by
        intro h
        subst h
        have := (hv _ _ _ hslot).2
        rw [hf] at this
        cases this
      rw [if_neg htag, hf]
      rfl

/-- Whatever `GetBlockData` returns came from a valid fetch, and validity
of the cache is preserved. -/
theorem GetBlockData_sound (f : Nat → Option (List Nat)) (c : Cache) (b : Nat)
    (d : List Nat) (c' : Cache) (hv : ValidCache f c)
    (h : GetBlockData f c b = some (d, c')) :
    f b = some d ∧ ValidCache f c' := by
  cases hf : f b with
  | none => rw [GetBlockData_of_none f c b hv hf] at h; cases h
  | some d0 =>
      obtain ⟨c'', hc'', hvc''⟩ := GetBlockData_of_some f c b d0 hv hf
      rw [hc''] at h
      cases h
      exact ⟨rfl, hvc''⟩

/-- Concatenating two adjacent slices of a blob gives the enclosing slice. -/
theorem slice_append (D : List Nat) (o a b : Nat) :
    (D.drop o).take a ++ (D.drop (o + a)).take b = (D.drop o).take (a + b) := by
  rw [List.take_add, List.drop_drop]

/-- A sub-range of a block, taken inside the block, is the corresponding
slice of the blob. -/
theorem blockBytes_slice (D : List Nat) (bs b i j : Nat) (h : i + j ≤ bs) :
    ((blockBytes D bs b).drop i).take j = (D.drop (b * bs + i)).take j := by
  unfold blockBytes
  rw [List.drop_take, List.take_take, List.drop_drop]
  have hmin : min j (bs - i) = j := by omega
  rw [hmin]

/-- Fetching `n` consecutive blocks that all have faithful contents yields
the `n * bs` byte slice starting at block `b`. -/
theorem ReadMultipleAlignedBlocks_eq (f : Nat → Option (List Nat)) (D : List Nat)
    (bs : Nat) :
    ∀ n b, (∀ i, i < n → f (b + i) = some (blockBytes D bs (b + i))) →
      ReadMultipleAlignedBlocks f b n = some ((D.drop (b * bs)).take (n * bs)) := by
  intro n
  induction n with
  | zero =>
      intro b _
      simp [ReadMultipleAlignedBlocks]
  | succ n ih =>
      intro b h
      have hb : f b = some (blockBytes D bs b) := by
        have := h 0 (by omega)
        simpa using this
      have hrest : ReadMultipleAlignedBlocks f (b + 1) n =
          some ((D.drop ((b + 1) * bs)).take (n * bs)) := by
        refine ih (b + 1) ?_
        intro i hi
        have := h (i + 1) (by omega)
        rw [show b + (i + 1) = b + 1 + i by omega] at this
        exact this
      have step : ReadMultipleAlignedBlocks f b (n + 1) =
          (f b).bind fun d =>
            (ReadMultipleAlignedBlocks f (b + 1) n).bind fun rest =>
              some (d ++ rest) := rfl
      rw [step, hb, hrest]
      simp only [Option.some_bind]
      congr 1
      have h1 : (b + 1) * bs = b * bs + bs := by
        rw [Nat.succ_mul]
      rw [h1, show (n + 1) * bs = bs + n * bs by rw [Nat.succ_mul]; omega,
        List.take_add]
      unfold blockBytes
      congr 1
      rw [List.drop_drop]

/-- Main correctness of the sector reader: over a faithful backing store
and a valid cache, an in-bounds `Read` succeeds and returns exactly the
requested slice of the blob, and the resulting cache is again valid. -/
theorem Read_correct (f : Nat → Option (List Nat)) (D : List Nat)
    (bs : Nat) (c : Cache) (offset size : Nat) (hbs : 0 < bs)
    (hf : GoodFetch f D bs) (hv : ValidCache f c)
    (hin : offset + size ≤ D.length) :
    ∃ c', SectorReader.Read f bs D.length c offset size =
        some ((D.drop offset).take size, c') ∧ ValidCache f c' := by
  have hnotlt : ¬ D.length < offset + size := by omega
  by_cases hsz : size = 0
  · subst hsz
    refine ⟨c, ?_, hv⟩
    unfold SectorReader.Read
    rw [if_neg hnotlt, if_pos rfl]
    simp
  have hdm : offset / bs * bs + offset % bs = offset := Nat.div_add_mod' offset bs
  have hsIB : offset % bs < bs := Nat.mod_lt offset hbs
  by_cases hone : offset % bs + size ≤ bs
  · -- the whole request lies in one block, served through the cache
    have hrange : offset / bs * bs < D.length := by omega
    obtain ⟨c', hgbd, hv'⟩ :=
      GetBlockData_of_some f c (offset / bs) _ hv (hf _ hrange)
    refine ⟨c', ?_, hv'⟩
    unfold SectorReader.Read
    rw [if_neg hnotlt, if_neg hsz, if_pos hone, hgbd]
    simp only [Option.map_some']
    rw [blockBytes_slice D bs _ _ _ (by omega), hdm]
  · -- the request spans several blocks
    have hdm2 : (offset + size) / bs * bs + (offset + size) % bs = offset + size :=
      Nat.div_add_mod' (offset + size) bs
    have heIB : (offset + size) % bs < bs := Nat.mod_lt _ hbs
    have hmfB : offset ≤ midFirst bs offset * bs ∧
        midFirst bs offset * bs ≤ offset + size := by
      unfold midFirst
      by_cases hal : offset % bs = 0
      · rw [if_pos hal]
        omega
      · rw [if_neg hal, Nat.succ_mul]
        omega
    have hmf_le : midFirst bs offset ≤ (offset + size) / bs := by
      rw [Nat.le_div_iff_mul_le hbs]
      exact hmfB.2
    have hnm_eq : midFirst bs offset + numMid bs offset size = (offset + size) / bs := by
      unfold numMid
      omega
    have hmul_nm : midFirst bs offset * bs + numMid bs offset size * bs =
        (offset + size) / bs * bs := by
      rw [← Nat.add_mul, hnm_eq]
    -- stage 1: the unaligned prefix, through the cache
    obtain ⟨pre, c1, hst1, hpre, hc1⟩ : ∃ pre c1,
        (if offset % bs = 0 then some (([] : List Nat), c)
         else (GetBlockData f c (offset / bs)).map fun p =>
           ((p.1.drop (offset % bs)).take (bs - offset % bs), p.2)) = some (pre, c1) ∧
        pre = (D.drop offset).take (midFirst bs offset * bs - offset) ∧
        ValidCache f c1 := by
      by_cases hal : offset % bs = 0
      · refine ⟨[], c, by rw [if_pos hal], ?_, hv⟩
        have h0 : midFirst bs offset * bs = offset := by
          unfold midFirst
          rw [if_pos hal]
          omega
        rw [h0, Nat.sub_self, List.take_zero]
      · have hrange : offset / bs * bs < D.length := by omega
        obtain ⟨c1, hgbd, hv1⟩ :=
          GetBlockData_of_some f c (offset / bs) _ hv (hf _ hrange)
        refine ⟨((blockBytes D bs (offset / bs)).drop (offset % bs)).take
          (bs - offset % bs), c1, ?_, ?_, hv1⟩
        · rw [if_neg hal, hgbd]
          rfl
        · rw [blockBytes_slice D bs _ _ _ (by omega), hdm]
          have h1 : midFirst bs offset = offset / bs + 1 := by
            unfold midFirst
            rw [if_neg hal]
          rw [h1, Nat.succ_mul]
          congr 1
          omega
      -- stage 2: the aligned middle run
    obtain ⟨mid, c2, hst2, hmid, hc2⟩ : ∃ mid c2,
        (if 1 < numMid bs offset size then
            (ReadMultipleAlignedBlocks f (midFirst bs offset)
              (numMid bs offset size)).map fun d => (d, c1)
          else if numMid bs offset size = 1 then
            GetBlockData f c1 (midFirst bs offset)
          else some (([] : List Nat), c1)) = some (mid, c2) ∧
        mid = (D.drop (midFirst bs offset * bs)).take (numMid bs offset size * bs) ∧
        ValidCache f c2 := by
      have hblocks : ∀ i, i < numMid bs offset size →
          f (midFirst bs offset + i) =
            some (blockBytes D bs (midFirst bs offset + i)) := by
        intro i hi
        apply hf
        have h1 : midFirst bs offset + i + 1 ≤ (offset + size) / bs := by omega
        have h2 : (midFirst bs offset + i + 1) * bs ≤ (offset + size) / bs * bs :=
          Nat.mul_le_mul_right bs h1
        rw [Nat.succ_mul] at h2
        omega
      by_cases h2 : 1 < numMid bs offset size
      · rw [if_pos h2,
          ReadMultipleAlignedBlocks_eq f D bs (numMid bs offset size)
            (midFirst bs offset) hblocks]
        exact ⟨_, c1, rfl, rfl, hc1⟩
      · by_cases h1 : numMid bs offset size = 1
        · rw [if_neg h2, if_pos h1]
          have hrange : midFirst bs offset * bs < D.length := by
            have h3 := hmul_nm
            rw [h1, Nat.one_mul] at h3
            omega
          obtain ⟨c2, hgbd, hv2⟩ :=
            GetBlockData_of_some f c1 (midFirst bs offset) _ hc1 (hf _ hrange)
          refine ⟨_, c2, hgbd, ?_, hv2⟩
          rw [h1, Nat.one_mul]
          rfl
        · have h0 : numMid bs offset size = 0 := by omega
          rw [if_neg h2, if_neg h1]
          refine ⟨[], c1, rfl, ?_, hc1⟩
          rw [h0, Nat.zero_mul, List.take_zero]
    -- stage 3: the unaligned suffix, through the cache
    obtain ⟨suf, c3, hst3, hsuf, hc3⟩ : ∃ suf c3,
        (if (offset + size) % bs = 0 then some (([] : List Nat), c2)
         else (GetBlockData f c2 ((offset + size) / bs)).map fun p =>
           (p.1.take ((offset + size) % bs), p.2)) = some (suf, c3) ∧
        suf = (D.drop ((offset + size) / bs * bs)).take ((offset + size) % bs) ∧
        ValidCache f c3 := by
      by_cases heal : (offset + size) % bs = 0
      · refine ⟨[], c2, by rw [if_pos heal], ?_, hc2⟩
        rw [heal, List.take_zero]
      · have hrange : (offset + size) / bs * bs < D.length := by omega
        obtain ⟨c3, hgbd, hv3⟩ :=
          GetBlockData_of_some f c2 ((offset + size) / bs) _ hc2 (hf _ hrange)
        refine ⟨(blockBytes D bs ((offset + size) / bs)).take ((offset + size) % bs),
          c3, ?_, ?_, hv3⟩
        · rw [if_neg heal, hgbd]
          rfl
        · unfold blockBytes
          rw [List.take_take]
          congr 1
          omega
    refine ⟨c3, ?_, hc3⟩
    unfold SectorReader.Read
    rw [if_neg hnotlt, if_neg hsz, if_neg hone, hst1]
    simp only [Option.some_bind]
    rw [hst2]
    simp only [Option.some_bind]
    rw [hst3]
    simp only [Option.some_bind]
    have hkey : pre ++ mid ++ suf = (D.drop offset).take size := by
      rw [hpre, hmid, hsuf]
      obtain ⟨B, hB⟩ : ∃ B, midFirst bs offset * bs = B := ⟨_, rfl⟩
      obtain ⟨C, hC⟩ : ∃ C, numMid bs offset size * bs = C := ⟨_, rfl⟩
      obtain ⟨E, hE⟩ : ∃ E, (offset + size) / bs * bs = E := ⟨_, rfl⟩
      obtain ⟨r, hr⟩ : ∃ r, (offset + size) % bs = r := ⟨_, rfl⟩
      rw [hB, hC, hE, hr]
      rw [hB, hC, hE] at hmul_nm
      rw [hB] at hmfB
      rw [hE, hr] at hdm2
      have hsz2 : size = B - offset + (C + r) := by omega
      rw [hsz2, ← slice_append D offset (B - offset) (C + r),
        show offset + (B - offset) = B by omega,
        ← slice_append D B C r,
        show B + C = E by omega,
        List.append_assoc]
    rw [hkey]

/-- The prefix stage of a spanning read preserves cache validity. -/
theorem prefix_stage_valid (f : Nat → Option (List Nat)) (bs offset : Nat)
    (c : Cache) (pre : List Nat) (c1 : Cache) (hv : ValidCache f c)
    (h : (if offset % bs = 0 then some (([] : List Nat), c)
          else (GetBlockData f c (offset / bs)).map fun p =>
            ((p.1.drop (offset % bs)).take (bs - offset % bs), p.2)) = some (pre, c1)) :
    ValidCache f c1 := by
  split at h
  · simp only [Option.some.injEq, Prod.mk.injEq] at h
    rw [← h.2]
    exact hv
  · cases hg : GetBlockData f c (offset / bs) with
    | none => rw [hg] at h; cases h
    | some p =>
        obtain ⟨d, cm⟩ := p
        rw [hg] at h
        simp only [Option.map_some', Option.some.injEq, Prod.mk.injEq] at h
        rw [← h.2]
        exact (GetBlockData_sound f c _ d cm hv hg).2

/-- The middle stage of a spanning read preserves cache validity. -/
theorem mid_stage_valid (f : Nat → Option (List Nat)) (bs offset size : Nat)
    (c1 : Cache) (mid : List Nat) (c2 : Cache) (hv1 : ValidCache f c1)
    (h : (if 1 < numMid bs offset size then
            (ReadMultipleAlignedBlocks f (midFirst bs offset)
              (numMid bs offset size)).map fun d => (d, c1)
          else if numMid bs offset size = 1 then
            GetBlockData f c1 (midFirst bs offset)
          else some (([] : List Nat), c1)) = some (mid, c2)) :
    ValidCache f c2 := by
  split at h
  · cases hr : ReadMultipleAlignedBlocks f (midFirst bs offset) (numMid bs offset size) with
    | none => rw [hr] at h; cases h
    | some d =>
        rw [hr] at h
        simp only [Option.map_some', Option.some.injEq, Prod.mk.injEq] at h
        rw [← h.2]
        exact hv1
  · split at h
    · cases hg : GetBlockData f c1 (midFirst bs offset) with
      | none => rw [hg] at h; cases h
      | some p =>
          obtain ⟨d, cm⟩ := p
          rw [hg] at h
          simp only [Option.some.injEq, Prod.mk.injEq] at h
          rw [← h.2]
          exact (GetBlockData_sound f c1 _ d cm hv1 hg).2
    · simp only [Option.some.injEq, Prod.mk.injEq] at h
      rw [← h.2]
      exact hv1

/-- The suffix stage of a spanning read preserves cache validity. -/
theorem suffix_stage_valid (f : Nat → Option (List Nat)) (bs offset size : Nat)
    (c2 : Cache) (suf : List Nat) (c3 : Cache) (hv2 : ValidCache f c2)
    (h : (if (offset + size) % bs = 0 then some (([] : List Nat), c2)
          else (GetBlockData f c2 ((offset + size) / bs)).map fun p =>
            (p.1.take ((offset + size) % bs), p.2)) = some (suf, c3)) :
    ValidCache f c3 := by
  split at h
  · simp only [Option.some.injEq, Prod.mk.injEq] at h
    rw [← h.2]
    exact hv2
  · cases hg : GetBlockData f c2 ((offset + size) / bs) with
    | none => rw [hg] at h; cases h
    | some p =>
        obtain ⟨d, cm⟩ := p
        rw [hg] at h
        simp only [Option.map_some', Option.some.injEq, Prod.mk.injEq] at h
        rw [← h.2]
        exact (GetBlockData_sound f c2 _ d cm hv2 hg).2

/-- Any successful `Read` leaves the cache valid, for an arbitrary backing
store. -/
theorem Read_preserves_valid (f : Nat → Option (List Nat)) (bs ds : Nat)
    (c : Cache) (offset size : Nat) (out : List Nat) (c' : Cache)
    (hv : ValidCache f c)
    (h : SectorReader.Read f bs ds c offset size = some (out, c')) :
    ValidCache f c' := by
  unfold SectorReader.Read at h
  split at h
  · cases h
  split at h
  · simp only [Option.some.injEq, Prod.mk.injEq] at h
    rw [← h.2]
    exact hv
  split at h
  · cases hg : GetBlockData f c (offset / bs) with
    | none => rw [hg] at h; cases h
    | some p =>
        obtain ⟨d, cm⟩ := p
        rw [hg] at h
        simp only [Option.map_some', Option.some.injEq, Prod.mk.injEq] at h
        rw [← h.2]
        exact (GetBlockData_sound f c _ d cm hv hg).2
  · cases hs1 : (if offset % bs = 0 then some (([] : List Nat), c)
        else (GetBlockData f c (offset / bs)).map fun p =>
          ((p.1.drop (offset % bs)).take (bs - offset % bs), p.2)) with
    | none => rw [hs1] at h; cases h
    | some p1 =>
        obtain ⟨pre, c1⟩ := p1
        have hc1 : ValidCache f c1 := prefix_stage_valid f bs offset c pre c1 hv hs1
        rw [hs1] at h
        simp only [Option.some_bind] at h
        cases hs2 : (if 1 < numMid bs offset size then
              (ReadMultipleAlignedBlocks f (midFirst bs offset)
                (numMid bs offset size)).map fun d => (d, c1)
            else if numMid bs offset size = 1 then
              GetBlockData f c1 (midFirst bs offset)
            else some (([] : List Nat), c1)) with
        | none => rw [hs2] at h; cases h
        | some p2 =>
            obtain ⟨mid, c2⟩ := p2
            have hc2 : ValidCache f c2 :=
              mid_stage_valid f bs offset size c1 mid c2 hc1 hs2
            rw [hs2] at h
            simp only [Option.some_bind] at h
            cases hs3 : (if (offset + size) % bs = 0 then some (([] : List Nat), c2)
                else (GetBlockData f c2 ((offset + size) / bs)).map fun p =>
                  (p.1.take ((offset + size) % bs), p.2)) with
            | none => rw [hs3] at h; cases h
            | some p3 =>
                obtain ⟨suf, c3⟩ := p3
                have hc3 : ValidCache f c3 :=
                  suffix_stage_valid f bs offset size c2 suf c3 hc2 hs3
                rw [hs3] at h
                simp only [Option.some_bind, Option.some.injEq, Prod.mk.injEq] at h
                rw [← h.2]
                exact hc3

/-- A fully block-aligned multi-block read goes through the uncached bulk
path and returns the cache exactly as it found it. -/
theorem Read_aligned_run_cache_unchanged (f : Nat → Option (List Nat))
    (bs ds : Nat) (c : Cache) (offset size : Nat) (out : List Nat) (c' : Cache)
    (k : Nat) (hbs : 0 < bs) (hal : offset % bs = 0) (hsz : size = k * bs)
    (hk : 2 ≤ k)
    (h : SectorReader.Read f bs ds c offset size = some (out, c')) :
    c' = c := by
  subst hsz
  have hkbs : 2 * bs ≤ k * bs := Nat.mul_le_mul_right bs hk
  have hnm : numMid bs offset (k * bs) = k := by
    unfold numMid midFirst
    rw [if_pos hal, Nat.add_mul_div_right _ _ hbs]
    omega
  have heal : (offset + k * bs) % bs = 0 := by
    rw [Nat.add_mul_mod_self_right]
    exact hal
  unfold SectorReader.Read at h
  by_cases hb : ds < offset + k * bs
  · rw [if_pos hb] at h
    cases h
  rw [if_neg hb] at h
  rw [if_neg (show ¬ k * bs = 0 by omega)] at h
  rw [if_neg (show ¬ (offset % bs + k * bs ≤ bs) by omega)] at h
  rw [if_pos hal] at h
  simp only [Option.some_bind] at h
  rw [if_pos (by omega : 1 < numMid bs offset (k * bs))] at h
  cases hr : ReadMultipleAlignedBlocks f (midFirst bs offset) (numMid bs offset (k * bs)) with
  | none => rw [hr] at h; cases h
  | some d =>
      rw [hr] at h
      simp only [Option.map_some', Option.some_bind] at h
      rw [if_pos heal] at h
      simp only [Option.some_bind, Option.some.injEq, Prod.mk.injEq] at h
      exact h.2.symm

/-- A failing fetch of any of the `n` blocks makes the whole uncached
multi-block read fail. -/
theorem ReadMultipleAlignedBlocks_none (f : Nat → Option (List Nat)) :
    ∀ n b i, i < n → f (b + i) = none →
      ReadMultipleAlignedBlocks f b n = none := by
  intro n
  induction n with
  | zero =>
      intro b i hi
      omega
  | succ n ih =>
      intro b i hi hfail
      have step : ReadMultipleAlignedBlocks f b (n + 1) =
          (f b).bind fun d =>
            (ReadMultipleAlignedBlocks f (b + 1) n).bind fun rest =>
              some (d ++ rest) := rfl
      rw [step]
      cases hfb : f b with
      | none => rfl
      | some d =>
          cases hi0 : i with
          | zero =>
              rw [hi0] at hfail
              simp only [Nat.add_zero] at hfail
              rw [hfail] at hfb
              cases hfb
          | succ j =>
              have : ReadMultipleAlignedBlocks f (b + 1) n = none := by
                refine ih (b + 1) j (by omega) ?_
                rw [show b + 1 + j = b + i by omega]
                exact hfail
              rw [this]
              rfl

/-- A sub-range taken inside a longer slice of a blob is the corresponding
direct slice of the blob. -/
theorem slice_within (D : List Nat) (A L i j : Nat) (h : i + j ≤ L) :
    (((D.drop A).take L).drop i).take j = (D.drop (A + i)).take j := by
  rw [List.drop_take, List.take_take, List.drop_drop]
  have hmin : min j (L - i) = j := by omega
  rw [hmin]

/-- An uncached reference reader: fetch every block of the request directly
from the backing store (no cache) and slice the concatenation.  Used to
state cache transparency. -/
def uncachedRead (f : Nat → Option (List Nat)) (bs ds offset size : Nat) :
    Option (List Nat) :=
  if ds < offset + size then none
  else if size = 0 then some []
  else (ReadMultipleAlignedBlocks f (offset / bs)
      ((offset + size - 1) / bs + 1 - offset / bs)).map
    fun d => (d.drop (offset % bs)).take size

/-- The uncached reference reader also returns exactly the requested slice
of the blob. -/
theorem uncachedRead_correct (f : Nat → Option (List Nat)) (D : List Nat)
    (bs offset size : Nat) (hbs : 0 < bs) (hf : GoodFetch f D bs)
    (hin : offset + size ≤ D.length) :
    uncachedRead f bs D.length offset size = some ((D.drop offset).take size) := by
  unfold uncachedRead
  rw [if_neg (by omega)]
  by_cases hsz : size = 0
  · subst hsz
    rw [if_pos rfl]
    simp
  rw [if_neg hsz]
  have hdm : offset / bs * bs + offset % bs = offset := Nat.div_add_mod' offset bs
  have hsIB : offset % bs < bs := Nat.mod_lt offset hbs
  have hdm1 : (offset + size - 1) / bs * bs + (offset + size - 1) % bs =
      offset + size - 1 := Nat.div_add_mod' (offset + size - 1) bs
  have hm1 : (offset + size - 1) % bs < bs := Nat.mod_lt _ hbs
  have hfb_le : offset / bs ≤ (offset + size - 1) / bs :=
    Nat.div_le_div_right (by omega)
  have hsum : offset / bs + ((offset + size - 1) / bs + 1 - offset / bs) =
      (offset + size - 1) / bs + 1 := by omega
  have hmul : (offset / bs + ((offset + size - 1) / bs + 1 - offset / bs)) * bs =
      offset / bs * bs +
        ((offset + size - 1) / bs + 1 - offset / bs) * bs := Nat.add_mul _ _ bs
  have hmul2 : ((offset + size - 1) / bs + 1) * bs =
      (offset + size - 1) / bs * bs + bs := Nat.succ_mul _ bs
  have hblocks : ∀ i, i < (offset + size - 1) / bs + 1 - offset / bs →
      f (offset / bs + i) = some (blockBytes D bs (offset / bs + i)) := by
    intro i hi
    apply hf
    have h1 : offset / bs + i ≤ (offset + size - 1) / bs := by omega
    have h2 : (offset / bs + i) * bs ≤ (offset + size - 1) / bs * bs :=
      Nat.mul_le_mul_right bs h1
    omega
  rw [ReadMultipleAlignedBlocks_eq f D bs _ _ hblocks]
  simp only [Option.map_some']
  rw [slice_within D _ _ _ _ (by rw [hsum] at hmul; omega), hdm]

/-- Run a sequence of cached reads, threading the cache, and concatenate
the bytes they return. -/
def runReads (f : Nat → Option (List Nat)) (bs ds : Nat) :
    Cache → List (Nat × Nat) → Option (List Nat × Cache)
  | c, [] => some ([], c)
  | c, r :: rest =>
      (SectorReader.Read f bs ds c r.1 r.2).bind fun p =>
      (runReads f bs ds p.2 rest).bind fun q =>
      some (p.1 ++ q.1, q.2)

/-- Run the same sequence of reads through the uncached reference reader
and concatenate the bytes. -/
def runUncachedReads (f : Nat → Option (List Nat)) (bs ds : Nat) :
    List (Nat × Nat) → Option (List Nat)
  | [] => some []
  | r :: rest =>
      (uncachedRead f bs ds r.1 r.2).bind fun d =>
      (runUncachedReads f bs ds rest).bind fun q =>
      some (d ++ q)

/-- If `GetBlock` fails on any block touched by the request, the whole
`Read` fails.  Block `b` is touched when it is at or after the first block
of the request and starts before the end of the request. -/
theorem Read_fetch_fail (f : Nat → Option (List Nat)) (bs ds : Nat) (c : Cache)
    (offset size b : Nat) (hbs : 0 < bs) (hv : ValidCache f c) (hsz : 0 < size)
    (hb1 : offset / bs ≤ b) (hb2 : b * bs < offset + size) (hfail : f b = none) :
    SectorReader.Read f bs ds c offset size = none := by
  unfold SectorReader.Read
  by_cases hbound : ds < offset + size
  · rw [if_pos hbound]
  rw [if_neg hbound, if_neg (show ¬ size = 0 by omega)]
  have hdm : offset / bs * bs + offset % bs = offset := Nat.div_add_mod' offset bs
  have hsIB : offset % bs < bs := Nat.mod_lt offset hbs
  by_cases hone : offset % bs + size ≤ bs
  · -- single-block request: the touched block must be the first block
    rw [if_pos hone]
    have hlt : b * bs < (offset / bs + 1) * bs := by
      rw [Nat.succ_mul]
      omega
    have hble : b < offset / bs + 1 := lt_of_mul_lt_mul_right hlt (Nat.zero_le bs)
    have hbeq : b = offset / bs := by omega
    rw [← hbeq, GetBlockData_of_none f c b hv hfail]
    rfl
  · -- spanning request
    rw [if_neg hone]
    have hdm2 : (offset + size) / bs * bs + (offset + size) % bs = offset + size :=
      Nat.div_add_mod' (offset + size) bs
    have heIB : (offset + size) % bs < bs := Nat.mod_lt _ hbs
    have hble : b ≤ (offset + size) / bs := by
      rw [Nat.le_div_iff_mul_le hbs]
      omega
    have hnm_def : numMid bs offset size =
        (offset + size) / bs - midFirst bs offset := rfl
    cases hs1 : (if offset % bs = 0 then some (([] : List Nat), c)
        else (GetBlockData f c (offset / bs)).map fun p =>
          ((p.1.drop (offset % bs)).take (bs - offset % bs), p.2)) with
    | none => rfl
    | some p1 =>
        obtain ⟨pre, c1⟩ := p1
        have hc1 : ValidCache f c1 := prefix_stage_valid f bs offset c pre c1 hv hs1
        simp only [Option.some_bind]
        have hmFb : midFirst bs offset ≤ b := by
          by_cases hal : offset % bs = 0
          · unfold midFirst
            rw [if_pos hal]
            exact hb1
          · have hbne : b ≠ offset / bs := by
              intro he
              rw [he] at hfail
              rw [if_neg hal, GetBlockData_of_none f c _ hv hfail] at hs1
              cases hs1
            unfold midFirst
            rw [if_neg hal]
            omega
        by_cases hbsfx : b = (offset + size) / bs
        · -- the touched block is the suffix block
          subst hbsfx
          cases hs2 : (if 1 < numMid bs offset size then
                (ReadMultipleAlignedBlocks f (midFirst bs offset)
                  (numMid bs offset size)).map fun d => (d, c1)
              else if numMid bs offset size = 1 then
                GetBlockData f c1 (midFirst bs offset)
              else some (([] : List Nat), c1)) with
          | none => rfl
          | some p2 =>
              obtain ⟨mid, c2⟩ := p2
              have hc2 : ValidCache f c2 :=
                mid_stage_valid f bs offset size c1 mid c2 hc1 hs2
              simp only [Option.some_bind]
              have heal : (offset + size) % bs ≠ 0 := by omega
              rw [if_neg heal, GetBlockData_of_none f c2 _ hc2 hfail]
              rfl
        · -- the touched block lies in the aligned middle run
          have hbltE : b < (offset + size) / bs := by omega
          have hnm1 : 1 ≤ numMid bs offset size := by omega
          by_cases h2 : 1 < numMid bs offset size
          · rw [if_pos h2]
            rw [ReadMultipleAlignedBlocks_none f (numMid bs offset size)
              (midFirst bs offset) (b - midFirst bs offset) (by omega)
              (by rw [show midFirst bs offset + (b - midFirst bs offset) = b by omega]
                  exact hfail)]
            rfl
          · have hnm : numMid bs offset size = 1 := by omega
            have hbmf : b = midFirst bs offset := by omega
            rw [if_neg h2, if_pos hnm]
            subst hbmf
            rw [GetBlockData_of_none f c1 _ hc1 hfail]
            rfl


/-- Cache transparency engine: a sequence of in-bounds reads over a
faithful store returns, with any valid cache, exactly the bytes the
uncached reference reader returns. -/
theorem runReads_eq_uncached (f : Nat → Option (List Nat)) (D : List Nat)
    (bs : Nat) (hbs : 0 < bs) (hf : GoodFetch f D bs) :
    ∀ reqs c, ValidCache f c → (∀ r, r ∈ reqs → r.1 + r.2 ≤ D.length) →
      (runReads f bs D.length c reqs).map Prod.fst =
        runUncachedReads f bs D.length reqs := by
  intro reqs
  induction reqs with
  | nil =>
      intro c _ _
      rfl
  | cons r rest ih =>
      intro c hv hr
      obtain ⟨c', hread, hv'⟩ :=
        Read_correct f D bs c r.1 r.2 hbs hf hv (hr r (by simp))
      have hunc : uncachedRead f bs D.length r.1 r.2 =
          some ((D.drop r.1).take r.2) :=
        uncachedRead_correct f D bs r.1 r.2 hbs hf (hr r (by simp))
      have stepC : runReads f bs D.length c (r :: rest) =
          (SectorReader.Read f bs D.length c r.1 r.2).bind fun p =>
          (runReads f bs D.length p.2 rest).bind fun q =>
          some (p.1 ++ q.1, q.2) := rfl
      have stepU : runUncachedReads f bs D.length (r :: rest) =
          (uncachedRead f bs D.length r.1 r.2).bind fun d =>
          (runUncachedReads f bs D.length rest).bind fun q =>
          some (d ++ q) := rfl
      rw [stepC, stepU, hread, hunc]
      simp only [Option.some_bind]
      have ihr := ih c' hv' (fun q hq => hr q (by simp [hq]))
      cases hrr : runReads f bs D.length c' rest with
      | none =>
          rw [hrr] at ihr
          rw [← ihr]
          rfl
      | some p =>
          obtain ⟨bytesq, cq⟩ := p
          rw [hrr] at ihr
          rw [← ihr]
          rfl

/-- The per-block fallback path: serve a run of consecutive blocks one
block at a time through the cache (`GetBlockData`), threading the cache
state, and concatenate. -/
def readBlocksViaCache (f : Nat → Option (List Nat)) :
    Cache → Nat → Nat → Option (List Nat × Cache)
  | c, _, 0 => some ([], c)
  | c, b, n + 1 =>
      (GetBlockData f c b).bind fun p =>
      (readBlocksViaCache f p.2 (b + 1) n).bind fun q =>
      some (p.1 ++ q.1, q.2)

/-- Engine for the aligned-path equivalence: over any valid cache, the
cached per-block path returns exactly the bytes of the uncached bulk
path. -/
theorem readBlocksViaCache_eq (f : Nat → Option (List Nat)) :
    ∀ n b c, ValidCache f c →
      (readBlocksViaCache f c b n).map Prod.fst =
        ReadMultipleAlignedBlocks f b n := by
  intro n
  induction n with
  | zero =>
      intro b c _
      rfl
  | succ n ih =>
      intro b c hv
      have stepL : readBlocksViaCache f c b (n + 1) =
          (GetBlockData f c b).bind fun p =>
          (readBlocksViaCache f p.2 (b + 1) n).bind fun q =>
          some (p.1 ++ q.1, q.2) := rfl
      have stepR : ReadMultipleAlignedBlocks f b (n + 1) =
          (f b).bind fun d =>
            (ReadMultipleAlignedBlocks f (b + 1) n).bind fun rest =>
              some (d ++ rest) := rfl
      rw [stepL, stepR]
      cases hfb : f b with
      | none =>
          rw [GetBlockData_of_none f c b hv hfb]
          rfl
      | some d =>
          obtain ⟨c', hgbd, hv'⟩ := GetBlockData_of_some f c b d hv hfb
          rw [hgbd]
          simp only [Option.some_bind]
          have ihr := ih (b + 1) c' hv'
          cases hrec : readBlocksViaCache f c' (b + 1) n with
          | none =>
              rw [hrec] at ihr
              rw [← ihr]
              rfl
          | some q =>
              obtain ⟨bytesq, cq⟩ := q
              rw [hrec] at ihr
              rw [← ihr]
              rfl

/-! ## Compression driver (Blob.h: CompressFileToBlob / DecompressBlobToFile)

`CompressFileToBlob` and `DecompressBlobToFile` are declared in Blob.h
lines 105-108; their bodies are outside the excerpt, so the driver and the
compressed-container format are modelled from §3, §4.4 and §6 of the spec.
The block codec is the abstract deflate-family black box the spec assumes:
compression is a function on byte lists, decompression an optional inverse
that may also report corruption. -/

/-- Concatenation of a list of blocks. -/
def joinAll : List (List Nat) → List Nat
  | [] => []
  | l :: ls => l ++ joinAll ls

/-- Split a blob into `S`-byte blocks, last block possibly shorter; the
fuel argument (instantiated with the blob length) bounds the recursion. -/
def splitBlocksFuel (S : Nat) : Nat → List Nat → List (List Nat)
  | _, [] => []
  | 0, _ => []
  | fuel + 1, l => l.take S :: splitBlocksFuel S fuel (l.drop S)

/-- Modelled from the spec: the chunking loop of `CompressFileToBlob`
(§4.4): iterate the source in `block_size`-sized chunks from offset 0 to
the end. -/
def splitBlocks (S : Nat) (D : List Nat) : List (List Nat) :=
  splitBlocksFuel S D.length D

/-- Splitting a blob into positive-size blocks and concatenating them
gives back the blob. -/
theorem joinAll_splitBlocksFuel (S : Nat) (hS : 0 < S) :
    ∀ fuel l, l.length ≤ fuel → joinAll (splitBlocksFuel S fuel l) = l := by
  intro fuel
  induction fuel with
  | zero =>
      intro l hl
      have : l = [] := List.eq_nil_of_length_eq_zero (by omega)
      subst this
      rfl
  | succ fuel ih =>
      intro l hl
      cases l with
      | nil => rfl
      | cons x xs =>
          have step : splitBlocksFuel S (fuel + 1) (x :: xs) =
              (x :: xs).take S :: splitBlocksFuel S fuel ((x :: xs).drop S) := rfl
          rw [step]
          have hrec : joinAll (splitBlocksFuel S fuel ((x :: xs).drop S)) =
              (x :: xs).drop S := by
            refine ih _ ?_
            have hdrop := List.length_drop S (x :: xs)
            simp only [List.length_cons] at hl hdrop
            omega
          show (x :: xs).take S ++ joinAll (splitBlocksFuel S fuel ((x :: xs).drop S)) =
            x :: xs
          rw [hrec, List.take_append_drop]

theorem joinAll_splitBlocks (S : Nat) (hS : 0 < S) (D : List Nat) :
    joinAll (splitBlocks S D) = D :=
  joinAll_splitBlocksFuel S hS D.length D (Nat.le_refl _)

/-- Modelled from the spec: the compressed container (§3 and §6) in parsed
form: header fields (block size and total logical size), the block table
of `(offset, compressed_size)` entries in block order, and the block-data
region.  Table offsets are relative to the start of the block-data region;
the on-disk format stores absolute file offsets, which differ from these
by the fixed header-plus-table length. -/
structure CompressedBlob where
  block_size : Nat
  data_size : Nat
  table : List (Nat × Nat)
  blockData : List Nat

/-- Build the block table: one `(offset, length)` entry per compressed
block, offsets accumulated from `off`. -/
def buildTable : List (List Nat) → Nat → List (Nat × Nat)
  | [], _ => []
  | blk :: rest, off => (off, blk.length) :: buildTable rest (off + blk.length)

/-- Modelled from the spec: `CompressFileToBlob` (Blob.h lines 105-106,
body outside the excerpt), per §4.4: split the source into `sector_size`
chunks, compress each independently with the block codec, record each
span in the table and concatenate the spans into the block-data region. -/
def CompressFileToBlob (codec : List Nat → List Nat) (S : Nat) (D : List Nat) :
    CompressedBlob :=
  { block_size := S
    data_size := D.length
    table := buildTable ((splitBlocks S D).map codec) 0
    blockData := joinAll ((splitBlocks S D).map codec) }

/-- Read each table entry's span out of the block-data region and
decompress it (step 2-4 of §4.3); any codec failure is fatal. -/
def readSpans (decode : List Nat → Option (List Nat)) (data : List Nat) :
    List (Nat × Nat) → Option (List (List Nat))
  | [] => some []
  | e :: rest =>
      (decode ((data.drop e.1).take e.2)).bind fun blk =>
      (readSpans decode data rest).bind fun others =>
      some (blk :: others)

/-- Modelled from the spec: `DecompressBlobToFile` (Blob.h lines 107-108,
body outside the excerpt), per §4.4: fetch and decompress every block in
table order and write the plaintexts sequentially. -/
def DecompressBlobToFile (decode : List Nat → Option (List Nat))
    (cb : CompressedBlob) : Option (List Nat) :=
  (readSpans decode cb.blockData cb.table).map joinAll

/-- Reading the spans of a table built for blocks laid out after an
arbitrary prefix recovers exactly those blocks. -/
theorem readSpans_buildTable (decode : List Nat → Option (List Nat))
    (codec : List Nat → List Nat) (hcd : ∀ l, decode (codec l) = some l) :
    ∀ blks pre, readSpans decode (pre ++ joinAll (blks.map codec))
        (buildTable (blks.map codec) pre.length) = some blks := by
  intro blks
  induction blks with
  | nil =>
      intro pre
      rfl
  | cons b rest ih =>
      intro pre
      have stepT : buildTable ((b :: rest).map codec) pre.length =
          (pre.length, (codec b).length) ::
            buildTable (rest.map codec) (pre.length + (codec b).length) := rfl
      have stepJ : joinAll ((b :: rest).map codec) =
          codec b ++ joinAll (rest.map codec) := rfl
      rw [stepT, stepJ]
      have stepR : readSpans decode (pre ++ (codec b ++ joinAll (rest.map codec)))
          ((pre.length, (codec b).length) ::
            buildTable (rest.map codec) (pre.length + (codec b).length)) =
          (decode (((pre ++ (codec b ++ joinAll (rest.map codec))).drop
              pre.length).take (codec b).length)).bind fun blk =>
          (readSpans decode (pre ++ (codec b ++ joinAll (rest.map codec)))
            (buildTable (rest.map codec) (pre.length + (codec b).length))).bind
              fun others =>
          some (blk :: others) := rfl
      rw [stepR, List.drop_left, List.take_left, hcd]
      have hassoc : pre ++ (codec b ++ joinAll (rest.map codec)) =
          (pre ++ codec b) ++ joinAll (rest.map codec) :=
        (List.append_assoc pre (codec b) _).symm
      have hlen : pre.length + (codec b).length = (pre ++ codec b).length :=
        (List.length_append pre (codec b)).symm
      rw [hassoc, hlen, ih (pre ++ codec b)]
      rfl

/-- Modelled from the spec: the per-block compression loop of
`CompressFileToBlob` with its progress callback (`CompressCB`, Blob.h line
103), §4.4: after each block the callback is consulted; returning false
signals cancellation and aborts the whole operation. -/
def compressBlocksCB (codec : List Nat → List Nat) (cb : Nat → Bool) :
    List (List Nat) → Nat → Option (List (List Nat))
  | [], _ => some []
  | blk :: rest, i =>
      if cb i then
        (compressBlocksCB codec cb rest (i + 1)).map fun others =>
          codec blk :: others
      else none

/-- Modelled from the spec: `CompressFileToBlob` with cancellation: on
cancellation the partial destination file is deleted and failure is
reported, modelled by `none` (no container exists at the output path);
on success the complete container is produced. -/
def CompressFileToBlobCB (codec : List Nat → List Nat) (cb : Nat → Bool)
    (S : Nat) (D : List Nat) : Option CompressedBlob :=
  (compressBlocksCB codec cb (splitBlocks S D) 0).map fun cblocks =>
    { block_size := S
      data_size := D.length
      table := buildTable cblocks 0
      blockData := joinAll cblocks }

/-- If the callback rejects the `j`-th block processed (counting from the
starting index), the compression loop returns `none`. -/
theorem compressBlocksCB_none (codec : List Nat → List Nat) (cb : Nat → Bool) :
    ∀ blks i0 j, j < blks.length → cb (i0 + j) = false →
      compressBlocksCB codec cb blks i0 = none := by
  intro blks
  induction blks with
  | nil =>
      intro i0 j hj
      simp at hj
  | cons blk rest ih =>
      intro i0 j hj hcb
      have step : compressBlocksCB codec cb (blk :: rest) i0 =
          if cb i0 then
            (compressBlocksCB codec cb rest (i0 + 1)).map fun others =>
              codec blk :: others
          else none := rfl
      rw [step]
      cases hc : cb i0 with
      | false => rw [if_neg (by simp [hc])]
      | true =>
          rw [if_pos (by simp [hc])]
          cases j with
          | zero =>
              rw [Nat.add_zero] at hcb
              rw [hcb] at hc
              cases hc
          | succ j =>
              rw [ih (i0 + 1) j (by simpa using hj)
                (by rw [show i0 + 1 + j = i0 + (j + 1) by omega]; exact hcb)]
              rfl

/-! ## Claim theorems -/

/-- C1: round-trip.  For every source blob `B` and positive block size
`S`, decompressing the container produced by `CompressFileToBlob` with
sector size `S` yields exactly `B`, byte for byte, whenever the block
codec inverts its compression. -/
theorem compress_decompress_roundtrip (codec : List Nat → List Nat)
    (decode : List Nat → Option (List Nat)) (S : Nat) (D : List Nat)
    (hS : 0 < S) (hcd : ∀ l, decode (codec l) = some l) :
    DecompressBlobToFile decode (CompressFileToBlob codec S D) = some D := by
  show (readSpans decode (joinAll ((splitBlocks S D).map codec))
      (buildTable ((splitBlocks S D).map codec) 0)).map joinAll = some D
  have h := readSpans_buildTable decode codec hcd (splitBlocks S D) []
  simp only [List.nil_append, List.length_nil] at h
  rw [h]
  simp only [Option.map_some']
  rw [joinAll_splitBlocks S hS D]

/-- Round-trip instance: block size 4, a ten-byte blob, and a codec that
prepends a marker byte (its decoder strips it again). -/
theorem compress_decompress_roundtrip_witness :
    DecompressBlobToFile (fun l => some (l.drop 1))
      (CompressFileToBlob (fun l => 0 :: l) 4 [0, 1, 2, 3, 4, 5, 6, 7, 8, 9]) =
      some [0, 1, 2, 3, 4, 5, 6, 7, 8, 9] :=
  compress_decompress_roundtrip (fun l => 0 :: l) (fun l => some (l.drop 1))
    4 [0, 1, 2, 3, 4, 5, 6, 7, 8, 9] (by decide) (fun l => rfl)

/-- Example blob of the spec's scenario: ten bytes 0..9. -/
def ex10 : List Nat := [0, 1, 2, 3, 4, 5, 6, 7, 8, 9]

/-- Faithful block store over `ex10` with block size 4. -/
def exFetch : Nat → Option (List Nat) :=
  fun b => if b * 4 < 10 then some (blockBytes ex10 4 b) else none

theorem exFetch_good : GoodFetch exFetch ex10 4 := by
  intro b hb
  have hb10 : b * 4 < 10 := by simpa [ex10] using hb
  unfold exFetch
  rw [if_pos hb10]

/-- C2: partial-block correctness.  Over a faithful block store and any
valid (cold or warm) cache, an in-bounds `Read` succeeds and returns
exactly the slice `[offset, offset+size)` of the blob, for arbitrary
unaligned offset and size. -/
theorem sectorReader_partial_block_correct (f : Nat → Option (List Nat))
    (D : List Nat) (bs : Nat) (c : Cache) (offset size : Nat) (hbs : 0 < bs)
    (hf : GoodFetch f D bs) (hv : ValidCache f c)
    (hin : offset + size ≤ D.length) :
    (SectorReader.Read f bs D.length c offset size).map Prod.fst =
      some ((D.drop offset).take size) := by
  obtain ⟨c', h, _⟩ := Read_correct f D bs c offset size hbs hf hv hin
  rw [h]
  rfl

/-- The spec's example scenario: block size 4, source `ex10`,
`Read(offset := 3, size := 4)` returns `[3, 4, 5, 6]`, stitched across
blocks 0 and 1. -/
theorem sectorReader_partial_block_correct_witness :
    (SectorReader.Read exFetch 4 ex10.length emptyCache 3 4).map Prod.fst =
      some [3, 4, 5, 6] :=
  (sectorReader_partial_block_correct exFetch ex10 4 emptyCache 3 4
    (by decide) exFetch_good (validCache_empty exFetch) (by decide)).trans
    (by decide)

/-- C3: bounds rejection.  Any request with `offset+size` beyond
`GetDataSize()` fails before any fetch, in particular
`Read(GetDataSize(), 1)`, while `Read(GetDataSize()-1, 1)` succeeds on a
nonempty blob over a faithful store. -/
theorem sectorReader_bounds_rejection (f : Nat → Option (List Nat))
    (D : List Nat) (bs : Nat) (c : Cache) (hbs : 0 < bs)
    (hf : GoodFetch f D bs) (hv : ValidCache f c) (hD : 0 < D.length) :
    (∀ offset size, D.length < offset + size →
        SectorReader.Read f bs D.length c offset size = none) ∧
    SectorReader.Read f bs D.length c D.length 1 = none ∧
    (SectorReader.Read f bs D.length c (D.length - 1) 1).map Prod.fst =
      some ((D.drop (D.length - 1)).take 1) := by
  refine ⟨?_, ?_, ?_⟩
  · intro offset size h
    unfold SectorReader.Read
    rw [if_pos h]
  · unfold SectorReader.Read
    rw [if_pos (by omega)]
  · obtain ⟨c', h, _⟩ :=
      Read_correct f D bs c (D.length - 1) 1 hbs hf hv (by omega)
    rw [h]
    rfl

/-- Bounds rejection at the exact boundary of the ten-byte example blob. -/
theorem sectorReader_bounds_rejection_witness :
    SectorReader.Read exFetch 4 ex10.length emptyCache ex10.length 1 = none ∧
    (SectorReader.Read exFetch 4 ex10.length emptyCache (ex10.length - 1) 1).map
      Prod.fst = some ((ex10.drop (ex10.length - 1)).take 1) ∧
    SectorReader.Read exFetch 4 ex10.length emptyCache 8 5 = none :=
  ⟨(sectorReader_bounds_rejection exFetch ex10 4 emptyCache (by decide)
      exFetch_good (validCache_empty exFetch) (by decide)).2.1,
   (sectorReader_bounds_rejection exFetch ex10 4 emptyCache (by decide)
      exFetch_good (validCache_empty exFetch) (by decide)).2.2,
   (sectorReader_bounds_rejection exFetch ex10 4 emptyCache (by decide)
      exFetch_good (validCache_empty exFetch) (by decide)).1 8 5 (by decide)⟩

/-- C4: cache transparency.  For any sequence of in-bounds reads over a
faithful store, the concatenation of the returned bytes through the
caching reader (starting from any valid cache, cold or warm) is identical
to the bytes of an uncached reader that fetches every block directly. -/
theorem sectorReader_cache_transparency (f : Nat → Option (List Nat))
    (D : List Nat) (bs : Nat) (c : Cache) (reqs : List (Nat × Nat))
    (hbs : 0 < bs) (hf : GoodFetch f D bs) (hv : ValidCache f c)
    (hreq : ∀ r, r ∈ reqs → r.1 + r.2 ≤ D.length) :
    (runReads f bs D.length c reqs).map Prod.fst =
      runUncachedReads f bs D.length reqs :=
  runReads_eq_uncached f D bs hbs hf reqs c hv hreq

/-- Cache transparency on a concrete request sequence with overlapping
ranges (the third request re-reads warm cache entries). -/
theorem sectorReader_cache_transparency_witness :
    (runReads exFetch 4 ex10.length emptyCache [(3, 4), (0, 2), (3, 4)]).map
      Prod.fst = runUncachedReads exFetch 4 ex10.length [(3, 4), (0, 2), (3, 4)] :=
  sectorReader_cache_transparency exFetch ex10 4 emptyCache
    [(3, 4), (0, 2), (3, 4)] (by decide) exFetch_good
    (validCache_empty exFetch) (by decide)

/-- C5: the sector cache is direct-mapped over `CACHE_SIZE = 32` slots (a
power of two); every successful `Read` leaves a cache in which each
occupied slot's tag maps to that slot (`tag mod CACHE_SIZE = slot`) and
holds exactly the fetched bytes of that tag (`ValidCache`), and a fully
aligned multi-block run bypasses the cache entirely, returning it
unchanged. -/
theorem sectorReader_cache_direct_mapped :
    (CACHE_SIZE = 32 ∧ CACHE_SIZE = 2 ^ 5) ∧
    (∀ f bs ds c offset size out c', ValidCache f c →
        SectorReader.Read f bs ds c offset size = some (out, c') →
        ValidCache f c') ∧
    (∀ f bs ds c offset size out c' k, 0 < bs → offset % bs = 0 →
        size = k * bs → 2 ≤ k →
        SectorReader.Read f bs ds c offset size = some (out, c') → c' = c) := by
  refine ⟨⟨rfl, rfl⟩, ?_, ?_⟩
  · intro f bs ds c offset size out c' hv h
    exact Read_preserves_valid f bs ds c offset size out c' hv h
  · intro f bs ds c offset size out c' k hbs hal hsz hk h
    exact Read_aligned_run_cache_unchanged f bs ds c offset size out c' k
      hbs hal hsz hk h

/-- Direct-mapped cache invariant instantiated on a concrete read: an
aligned two-block read over the example store succeeds and leaves the cold
cache untouched, and the resulting cache is valid. -/
theorem sectorReader_cache_direct_mapped_witness :
    SectorReader.Read exFetch 4 10 emptyCache 0 8 =
      some ([0, 1, 2, 3, 4, 5, 6, 7], emptyCache) ∧
    ValidCache exFetch emptyCache := by
  have hread : SectorReader.Read exFetch 4 10 emptyCache 0 8 =
      some ([0, 1, 2, 3, 4, 5, 6, 7], emptyCache) := rfl
  exact ⟨hread,
    sectorReader_cache_direct_mapped.2.1 exFetch 4 10 emptyCache 0 8
      [0, 1, 2, 3, 4, 5, 6, 7] emptyCache (validCache_empty exFetch) hread⟩

/-- C6: aligned multi-block path equivalence.  For every aligned run
request `(first_block, num_blocks)` and any valid cache, the per-block
fallback served through the cache returns exactly the bytes of the
uncached bulk path `ReadMultipleAlignedBlocks` (which is itself the
default implementation: repeated single-block fetches, concatenated). -/
theorem alignedMultiblock_path_equiv (f : Nat → Option (List Nat))
    (c : Cache) (b n : Nat) (hv : ValidCache f c) :
    (readBlocksViaCache f c b n).map Prod.fst =
      ReadMultipleAlignedBlocks f b n :=
  readBlocksViaCache_eq f n b c hv

/-- Aligned-path equivalence at a concrete three-block run over the
example store. -/
theorem alignedMultiblock_path_equiv_witness :
    (readBlocksViaCache exFetch emptyCache 0 3).map Prod.fst =
      ReadMultipleAlignedBlocks exFetch 0 3 :=
  alignedMultiblock_path_equiv exFetch emptyCache 0 3 (validCache_empty exFetch)

/-- C7: fetch-failure propagation.  If `GetBlock` fails on any block
touched by the request (with a cache that only ever holds really fetched
blocks), the whole `Read` reports failure. -/
theorem sectorReader_fetch_failure_propagates (f : Nat → Option (List Nat))
    (bs ds : Nat) (c : Cache) (offset size b : Nat) (hbs : 0 < bs)
    (hv : ValidCache f c) (hsz : 0 < size) (hb1 : offset / bs ≤ b)
    (hb2 : b * bs < offset + size) (hfail : f b = none) :
    SectorReader.Read f bs ds c offset size = none :=
  Read_fetch_fail f bs ds c offset size b hbs hv hsz hb1 hb2 hfail

/-- A store whose block 1 is unreadable. -/
def exFetchBad : Nat → Option (List Nat) :=
  fun b => if b = 1 then none else exFetch b

/-- Fetch failure propagation on a concrete spanning read that touches the
unreadable block 1. -/
theorem sectorReader_fetch_failure_propagates_witness :
    SectorReader.Read exFetchBad 4 10 emptyCache 3 4 = none :=
  sectorReader_fetch_failure_propagates exFetchBad 4 10 emptyCache 3 4 1
    (by decide) (validCache_empty exFetchBad) (by decide) (by decide)
    (by decide) rfl

/-- C8: cancellation leaves no artifact.  If the progress callback rejects
any block processed during the run, the compression aborts and reports
failure, leaving no container at the output path (modelled by `none`). -/
theorem compress_cancellation_no_artifact (codec : List Nat → List Nat)
    (cb : Nat → Bool) (S : Nat) (D : List Nat) (i : Nat)
    (hi : i < (splitBlocks S D).length) (hcb : cb i = false) :
    CompressFileToBlobCB codec cb S D = none := by
  unfold CompressFileToBlobCB
  rw [compressBlocksCB_none codec cb (splitBlocks S D) 0 i hi
    (by simpa using hcb)]
  rfl

/-- Cancellation instance: a callback that cancels after the first block
of the three-block example compression leaves no output container. -/
theorem compress_cancellation_no_artifact_witness :
    CompressFileToBlobCB (fun l => 0 :: l) (fun i => i == 0) 4 ex10 = none :=
  compress_cancellation_no_artifact (fun l => 0 :: l) (fun i => i == 0)
    4 ex10 1 (by decide) (by decide)
